import Mathlib

/-
Verification of the Scan-Utility repository scanning engine.
The definitions below are shallow embeddings of the Python source:
  - "Appsec Scan Utility/Appsec_Repo_Search.py" (quote-aware comment filter,
    the multi-line comment state machine, the sequential search loop),
  - "13.py" (iter_files, read_text_lines, worker_search_file with the
    context-window extraction, search_in_files_parallel),
  - "SCAN Utility Upgrade/Scan.py" (the exact/contains matcher with the
    word-boundary regex used for single-token keywords).
Lines and keywords are represented as List Char; Python str operations
(find, strip, lower, split, endswith) are re-implemented below with their
Python semantics.
-/

namespace ScanUtil

/-- Python whitespace, the character class used by str.strip and str.split. -/
def isPySpace (c : Char) : Bool :=
  c = ' ' || c = '\t' || c = '\n' || c = '\r' || c = '\x0b' || c = '\x0c'

/-- Python word character class, ASCII part of the regex class w. -/
def isWordChar (c : Char) : Bool :=
  c.isAlpha || c.isDigit || c = '_'

/-- Python str.lower, restricted to ASCII case mapping. -/
def pyLower (l : List Char) : List Char := l.map Char.toLower

/-- Does the list start with the given pattern (Python slice equality test). -/
def startsWithChars : List Char → List Char → Bool
  | [], _ => true
  | _ :: _, [] => false
  | p :: ps, c :: cs => p = c && startsWithChars ps cs

/-- Python str.find: index of the first occurrence of pat, none when absent. -/
def findSub (pat : List Char) : List Char → Option Nat
  | [] => if startsWithChars pat [] then some 0 else none
  | c :: rest =>
      if startsWithChars pat (c :: rest) then some 0
      else (findSub pat rest).map (· + 1)

/-- Python str.find with a start offset: line.find(pat, start). -/
def findSubFrom (pat : List Char) (l : List Char) (start : Nat) : Option Nat :=
  (findSub pat (l.drop start)).map (· + start)

/-- Python substring containment: pat in l. -/
def containsSub (pat l : List Char) : Bool := (findSub pat l).isSome

/-- Python str.endswith. -/
def endsWithChars (suf l : List Char) : Bool :=
  startsWithChars suf.reverse l.reverse

/-- Python raw_line.rstrip of the newline character. -/
def rstripNewline (l : List Char) : List Char :=
  (l.reverse.dropWhile (fun c => c = '\n')).reverse

/-- Python str.strip with no arguments: drop whitespace from both ends. -/
def pyStrip (l : List Char) : List Char :=
  ((l.dropWhile isPySpace).reverse.dropWhile isPySpace).reverse

/-- Helper for pySplitWs: accumulate the current token (reversed). -/
def splitWsAux : List Char → List Char → List (List Char)
  | [], cur => if cur = [] then [] else [cur.reverse]
  | c :: rest, cur =>
      if isPySpace c then
        if cur = [] then splitWsAux rest [] else cur.reverse :: splitWsAux rest []
      else splitWsAux rest (c :: cur)

/-- Python str.split with no arguments: whitespace runs, no empty tokens. -/
def pySplitWs (l : List Char) : List (List Char) := splitWsAux l []

theorem dropWhileLenLe (p : Char → Bool) : ∀ l : List Char, (l.dropWhile p).length ≤ l.length := by
  intro l
  induction l with
  | nil => simp [List.dropWhile]
  | cons c cs ih =>
      simp only [List.dropWhile]
      split
      · simp only [List.length_cons]; omega
      · simp

/-- re.split on runs of non-word characters, keeping empty edge tokens,
as used by the per-token matcher of the Appsec variant. -/
def splitNonWord : List Char → List (List Char)
  | [] => [[]]
  | c :: rest =>
      if isWordChar c then
        match splitNonWord rest with
        | [] => [[c]]
        | t :: ts => (c :: t) :: ts
      else [] :: splitNonWord (rest.dropWhile (fun d => !isWordChar d))
termination_by l => l.length
decreasing_by
  · simp only [List.length_cons]; omega
  · have := dropWhileLenLe (fun d => !isWordChar d) rest
    simp only [List.length_cons]; omega

/-- Stable descending-by-length insertion used to model
sorted(markers, key=lambda m: -len(m)). -/
def insertByLenDesc (m : List Char) : List (List Char) → List (List Char)
  | [] => [m]
  | x :: xs => if x.length < m.length then m :: x :: xs else x :: insertByLenDesc m xs

/-- sorted(markers, key=lambda m: -len(m)): longest first, stable on ties. -/
def sortMarkersDesc (markers : List (List Char)) : List (List Char) :=
  markers.foldl (fun acc m => insertByLenDesc m acc) []

/-- The inner marker scan of the Python loop: the first marker of the sorted
list that matches at the current position. -/
def findMarkerHere : List (List Char) → List Char → Option (List Char)
  | [], _ => none
  | m :: ms, suf => if startsWithChars m suf then some m else findMarkerHere ms suf

/-- Scanner state of the first-unquoted-marker loop: single-quote state,
double-quote state, backslash-escape state. -/
structure QState where
  inS : Bool
  inD : Bool
  esc : Bool
deriving DecidableEq, Repr

def qInit : QState := ⟨false, false, false⟩

/-- One character step of the quote/escape state machine, mirroring the
branch structure of the Python while loop. -/
def qstep (s : QState) (c : Char) : QState :=
  if s.esc then ⟨s.inS, s.inD, false⟩
  else if c = '\\' then ⟨s.inS, s.inD, true⟩
  else if !s.inD && c = '\'' && !s.inS then ⟨true, s.inD, false⟩
  else if s.inS && c = '\'' then ⟨false, s.inD, false⟩
  else if !s.inS && c = '"' && !s.inD then ⟨s.inS, true, false⟩
  else if s.inD && c = '"' then ⟨s.inS, false, false⟩
  else s

/-- The quote/escape state after consuming the first i characters of the line. -/
def qStateAt (line : List Char) (i : Nat) : QState :=
  (line.take i).foldl qstep qInit

/-- Recursive core of first-unquoted-marker-index: walks the line with the
quote state, checking the sorted markers only outside both quote states and
outside an escape, exactly as the Python loop does. -/
def fumAux (sorted : List (List Char)) : QState → Nat → List Char → Option (Nat × List Char)
  | _, _, [] => none
  | s, i, c :: rest =>
      if s.esc then fumAux sorted ⟨s.inS, s.inD, false⟩ (i + 1) rest
      else if c = '\\' then fumAux sorted ⟨s.inS, s.inD, true⟩ (i + 1) rest
      else if !s.inD && c = '\'' && !s.inS then fumAux sorted ⟨true, s.inD, false⟩ (i + 1) rest
      else if s.inS && c = '\'' then fumAux sorted ⟨false, s.inD, false⟩ (i + 1) rest
      else if !s.inS && c = '"' && !s.inD then fumAux sorted ⟨s.inS, true, false⟩ (i + 1) rest
      else if s.inD && c = '"' then fumAux sorted ⟨s.inS, false, false⟩ (i + 1) rest
      else if !s.inS && !s.inD then
        match findMarkerHere sorted (c :: rest) with
        | some m => some (i, m)
        | none => fumAux sorted s (i + 1) rest
      else fumAux sorted s (i + 1) rest

/-- Embedding of the first-unquoted-marker-index helper from the Appsec and
NewUiFix variants: the position and marker of the first single-line comment
marker occurring outside quoted string literals, or none. -/
def firstUnquotedMarker (line : List Char) (markers : List (List Char)) :
    Option (Nat × List Char) :=
  fumAux (sortMarkersDesc markers) qInit 0 line

/-- A multi-line comment token pair: (start token, end token). -/
abbrev TokPair := List Char × List Char

/-- One iteration of the inner for-loop of the Appsec multi-line comment
phase: keep the accumulator unless the start token of this pair occurs strictly
earlier. -/
def earliestStep (line : List Char) (acc : Option (Nat × TokPair)) (p : TokPair) :
    Option (Nat × TokPair) :=
  match findSub p.1 line with
  | none => acc
  | some i =>
      match acc with
      | none => some (i, p)
      | some (j, _) => if i < j then some (i, p) else acc

/-- The inner for-loop of the Appsec multi-line comment phase: the earliest
start-token occurrence among the configured pairs, ties by position going to
the earlier-configured pair (strict less-than update). -/
def earliestTok (line : List Char) (tokens : List TokPair) : Option (Nat × TokPair) :=
  tokens.foldl (earliestStep line) none

/-- Fuel-indexed while-True loop of the multi-line comment phase.  One
iteration removes a closed block and rescans, or truncates at an unclosed
start token and reports the end token that would close the block.  The fuel
is only a termination device; lineLen + 1 fuel is never exhausted for the
nonempty tokens configured in the source tables. -/
def stripMultiAux (tokens : List TokPair) : Nat → List Char → List Char × Option (List Char)
  | 0, l => (l, none)
  | fuel + 1, l =>
      match earliestTok l tokens with
      | none => (l, none)
      | some (i, (s, e)) =>
          match findSubFrom e l (i + s.length) with
          | some eIdx => stripMultiAux tokens fuel (l.take i ++ l.drop (eIdx + e.length))
          | none => (l.take i, some e)

/-- The multi-line comment phase applied to one (not-inside-a-block) line:
returns the line with closed blocks removed (or truncated at an unclosed
start token) and the pending end token when a block was left open. -/
def stripMulti (tokens : List TokPair) (l : List Char) : List Char × Option (List Char) :=
  stripMultiAux tokens (l.length + 1) l

/-- The single-line marker phase plus the two skip checks of the Appsec
per-line loop: strip an unquoted single-line comment tail, then skip the line
when nothing but whitespace remains or when an unquoted marker sits at
offset 0.  Returns the processed line or none when the line is skipped. -/
def singleMarkerPhase (markers : List (List Char)) (l : List Char) : Option (List Char) :=
  let l1 :=
    if markers ≠ [] then
      match firstUnquotedMarker l markers with
      | some (i, _) => l.take i
      | none => l
    else l
  if pyStrip l1 = [] then none
  else
    match (if markers ≠ [] then firstUnquotedMarker l1 markers else none) with
    | some (0, _) => none
    | _ => some l1

/-- The multi phase followed by the single-line phase, as executed on the
part of a line that is outside any already-open multi-line block. -/
def afterMultiPhase (tokens : List TokPair) (markers : List (List Char)) (l : List Char) :
    Option (List Char) × Option (List Char) :=
  let (l1, st) := stripMulti tokens l
  (st, singleMarkerPhase markers l1)

/-- One full iteration of the comment-ignoring block of the Appsec search
loop for one line: first the open-multi-line-block handling (skip the line,
or close the block at the configured end token and rescan the remainder),
then the multi-token phase, then the single-line marker phase.  The first
component is the multi-line state carried to the next line (the pending end
token), the second the processed line handed to the matcher, none when the
line is skipped. -/
def appsecProcessLine (tokens : List TokPair) (markers : List (List Char))
    (state : Option (List Char)) (line : List Char) :
    Option (List Char) × Option (List Char) :=
  match state with
  | some e =>
      if e ≠ [] ∧ containsSub e line then
        match findSub e line with
        | some eIdx => afterMultiPhase tokens markers (line.drop (eIdx + e.length))
        | none => (some e, none)
      else (some e, none)
  | none => afterMultiPhase tokens markers line

/-- Matcher flags shared by the Appsec and NewUiFix variants. -/
structure AppsecCfg where
  keyword : List Char
  exact : Bool
  perTok : Bool
  cs : Bool
  ignoreComments : Bool
  singleMarkers : List (List Char)
  multiTokens : List TokPair

/-- Case normalization: identity when case-sensitive, str.lower otherwise. -/
def normCase (cs : Bool) (l : List Char) : List Char := if cs then l else pyLower l

/-- The three-way match decision of the Appsec search loop over the processed
line: per-token split on non-word runs, exact as trimmed equality, default
substring containment; keyword and line case-normalized by the same flag. -/
def appsecMatchLine (cfg : AppsecCfg) (processed : List Char) : Bool :=
  let key := normCase cfg.cs cfg.keyword
  let sl := normCase cfg.cs processed
  if cfg.perTok then (splitNonWord sl).contains key
  else if cfg.exact then pyStrip sl = key
  else containsSub key sl

/-- Word character at a position of the line, false out of range:
used to model the regex word-boundary assertion. -/
def isWordAt (l : List Char) (p : Nat) : Bool :=
  match l.drop p with
  | [] => false
  | c :: _ => isWordChar c

/-- Regex word-boundary at position p of the line. -/
def boundaryAt (l : List Char) (p : Nat) : Bool :=
  (if p = 0 then false else isWordAt l (p - 1)) != isWordAt l p

/-- Character comparison, case-insensitive when the first flag is set
(re.IGNORECASE on ASCII). -/
def charEqCI (ci : Bool) (a b : Char) : Bool :=
  if ci then a.toLower = b.toLower else a = b

/-- The pattern matches the line slice starting at the current position. -/
def sliceMatches (ci : Bool) : List Char → List Char → Bool
  | [], _ => true
  | _ :: _, [] => false
  | p :: ps, c :: cs => charEqCI ci p c && sliceMatches ci ps cs

/-- Model of re.search for the Scan.py single-token exact pattern: a
word-boundary, the escaped keyword, and a word-boundary, searched anywhere in
the line, optionally case-insensitive. -/
def wordBoundedFound (ci : Bool) (kw l : List Char) : Bool :=
  (List.range (l.length + 1)).any fun i =>
    decide (i + kw.length ≤ l.length) && sliceMatches ci kw (l.drop i) &&
      boundaryAt l i && boundaryAt l (i + kw.length)

/-- The Scan.py match decision for one line (match_mode exact or contains):
exact mode uses the word-boundary regex when the compared keyword has no
space, and trimmed-line equality otherwise; contains mode is substring
containment; both sides lowered when case-insensitive. -/
def scanPyMatch (exactMode : Bool) (cs : Bool) (keyword lineText : List Char) : Bool :=
  let keywordCmp := if cs then keyword else pyLower keyword
  let lineCmp := if cs then lineText else pyLower lineText
  if exactMode then
    if ¬ keywordCmp.contains ' ' then wordBoundedFound (!cs) keywordCmp lineText
    else keywordCmp = pyStrip lineCmp
  else containsSub keywordCmp lineCmp

/-- Configuration of the 13.py worker; ignoreComments is the string flag the
source compares against the literal Yes. -/
structure Cfg13 where
  keyword : List Char
  subscan : Bool
  contextkw : List Char
  before : Nat
  after : Nat
  exact : Bool
  perTok : Bool
  cs : Bool
  ignoreComments : List Char

/-- The ignorecomments == Yes test of the worker. -/
def ig13 (cfg : Cfg13) : Bool := cfg.ignoreComments = ("Yes".toList)

/-- is_comment_line_text of the 13.py worker: after stripping leading
whitespace the line starts with one of the fixed comment openers. -/
def isCommentLineText (l : List Char) : Bool :=
  let t := l.dropWhile isPySpace
  startsWithChars ("//".toList) t || startsWithChars ("#".toList) t ||
    startsWithChars ("--".toList) t || startsWithChars ("/*".toList) t ||
    startsWithChars ("*".toList) t || startsWithChars ("*/".toList) t

/-- The window-skip predicate of the 13.py worker: comment lines are skipped
only when comment-ignoring is on, judged on the case-normalized line. -/
def isC13 (cfg : Cfg13) (l : List Char) : Bool :=
  ig13 cfg && isCommentLineText (normCase cfg.cs l)

/-- The backward gathering loop of the context window over the reversed list
of lines before the match: skip comment lines, take until n content lines. -/
def gatherBefore (isC : List Char → Bool) : Nat → List (List Char) → List (List Char)
  | _, [] => []
  | n, l :: rest =>
      if n = 0 then []
      else if isC l then gatherBefore isC n rest
      else gatherBefore isC (n - 1) rest ++ [l]

/-- The forward gathering loop of the context window over the lines after the
match: skip comment lines, take until n content lines. -/
def gatherAfter (isC : List Char → Bool) : Nat → List (List Char) → List (List Char)
  | _, [] => []
  | n, l :: rest =>
      if n = 0 then []
      else if isC l then gatherAfter isC n rest
      else l :: gatherAfter isC (n - 1) rest

/-- The assembled context window of the 13.py worker for a match at the
1-based line idx: up to before content lines, the matched line, up to after
content lines, with comment lines skipped per isC13. -/
def buildWindow (cfg : Cfg13) (lines : List (List Char)) (idx : Nat) : List (List Char) :=
  gatherBefore (isC13 cfg) cfg.before ((lines.take (idx - 1)).reverse) ++
    [lines.getD (idx - 1) []] ++
    gatherAfter (isC13 cfg) cfg.after (lines.drop idx)

/-- The 13.py match decision over the normalized line. -/
def match13 (cfg : Cfg13) (hay : List Char) : Bool :=
  let key := normCase cfg.cs cfg.keyword
  if cfg.exact then hay = key
  else if cfg.perTok then (pySplitWs hay).contains key
  else containsSub key hay

/-- The secondary context-keyword filter of the 13.py worker over the joined
window text; vacuously true when no context keyword is configured. -/
def ctxOk (cfg : Cfg13) (windowLines : List (List Char)) : Bool :=
  if cfg.contextkw = [] then true
  else
    let ctx := normCase cfg.cs cfg.contextkw
    let windowProc := normCase cfg.cs windowLines.flatten
    if cfg.exact then pyStrip windowProc = ctx
    else if cfg.perTok then (pySplitWs windowProc).contains ctx
    else containsSub ctx windowProc

/-- A match record of the 13.py worker: 1-based line number, the recorded
line text, and the context-window lines (empty when subscan is off; the
final string join of the window is presentation and not modelled). -/
abbrev Rec13 := Nat × List Char × List (List Char)

/-- The body of the 13.py per-line loop for one raw line: comment-line skip,
match decision, optional window assembly and context filtering, producing
zero or one records.  The recorded text is the raw line with trailing
newlines stripped. -/
def processOne13 (cfg : Cfg13) (lines : List (List Char)) (idx : Nat) (raw : List Char) :
    List Rec13 :=
  let line := rstripNewline raw
  let hay := normCase cfg.cs line
  if ig13 cfg && isCommentLineText hay then []
  else if !match13 cfg hay then []
  else if cfg.subscan then
    let w := buildWindow cfg lines idx
    if ctxOk cfg w then [(idx, line, w)] else []
  else [(idx, line, [])]

/-- The per-line loop of the 13.py worker without cancellation, from
1-based index idx over the remaining raw lines; the full list is kept for
window construction. -/
def worker13Go (cfg : Cfg13) (lines : List (List Char)) :
    Nat → List (List Char) → List Rec13
  | _, [] => []
  | idx, raw :: rest => processOne13 cfg lines idx raw ++ worker13Go cfg lines (idx + 1) rest

/-- The full uncancelled scan of one file by the 13.py worker. -/
def worker13Pure (cfg : Cfg13) (lines : List (List Char)) : List Rec13 :=
  worker13Go cfg lines 1 lines

/-- read_text_lines of 13.py: a failed open or read yields the empty line
list instead of an error. -/
def readTextLines (content : Option (List (List Char))) : List (List Char) :=
  content.getD []

/-- The per-line loop of the 13.py worker with the cancellation token.
stop gives the token value at any global time, t idx the time of the
checkpoint taken just before line idx is processed. -/
def worker13GoStop (stop : Nat → Bool) (t : Nat → Nat) (cfg : Cfg13)
    (lines : List (List Char)) : Nat → List (List Char) → List Rec13
  | _, [] => []
  | idx, raw :: rest =>
      if stop (t idx) then []
      else processOne13 cfg lines idx raw ++ worker13GoStop stop t cfg lines (idx + 1) rest

/-- worker_search_file of 13.py: the entry checkpoint at time t 0, then the
per-line loop with checkpoints t 1, t 2, ...; a failed read contributes the
empty line list. -/
def worker13Stop (stop : Nat → Bool) (t : Nat → Nat) (cfg : Cfg13)
    (content : Option (List (List Char))) : List Rec13 :=
  if stop (t 0) then []
  else
    let lines := readTextLines content
    worker13GoStop stop t cfg lines 1 lines

/-- The iter_files extension filter of 13.py: no filtering when the
extension list is empty or contains All; otherwise keep a file when its
lowered name ends with some lowered suffix. -/
def iterFilesKeep (extensions : List (List Char)) (fn : List Char) : Bool :=
  if extensions = [] ∨ ("All".toList) ∈ extensions then true
  else
    let exts := extensions.map pyLower
    let lf := pyLower fn
    exts.any fun e => endsWithChars e lf

/-- iter_files of 13.py restricted to its filtering decision over an
already-walked list of file names. -/
def iterFiles (extensions : List (List Char)) (files : List (List Char)) : List (List Char) :=
  files.filter (iterFilesKeep extensions)

/-- One completed worker future as seen by the collection loop of
search_in_files_parallel: the worker result and the global time at which the
coordinator collects it. -/
structure Job where
  result : List Rec13
  ct : Nat

/-- The mutable state of the collection loop, with the trace of progress
fractions handed to the throttled progress callback. -/
structure CollectState where
  results : List Rec13
  scanned : Nat
  fwm : Nat
  trace : List ℚ

/-- The progress fraction of 13.py: scanned / total if total else 1.0. -/
def frac13 (scanned total : Nat) : ℚ :=
  if total = 0 then 1 else (scanned : ℚ) / (total : ℚ)

/-- The body of one uncancelled iteration of the collection loop: commit
nonempty matches, advance the scanned counter, emit a progress fraction when
the time throttle (abstracted by flush) or the final file allows it. -/
def collectStep (flush : Nat → Bool) (total : Nat) (j : Job) (st : CollectState) :
    CollectState :=
  let st1 :=
    if j.result ≠ [] then
      { st with results := st.results ++ j.result, fwm := st.fwm + 1 }
    else st
  let st2 := { st1 with scanned := st1.scanned + 1 }
  if flush st2.scanned || st2.scanned = total then
    { st2 with trace := st2.trace ++ [frac13 st2.scanned total] }
  else st2

/-- The as_completed collection loop of search_in_files_parallel: a future
collected while the token is set is discarded; otherwise the step body runs
and a positive safeguard cap stops collection once scanned reaches it. -/
def collectLoop (stop : Nat → Bool) (flush : Nat → Bool) (safeguard total : Nat) :
    List Job → CollectState → CollectState
  | [], st => st
  | j :: rest, st =>
      if stop j.ct then collectLoop stop flush safeguard total rest st
      else
        let st3 := collectStep flush total j st
        if safeguard > 0 ∧ st3.scanned ≥ safeguard then st3
        else collectLoop stop flush safeguard total rest st3

/-- search_in_files_parallel of 13.py over the already-completed jobs: the
initial zero-total progress emission, the collection loop, and the forced
final progress emission. -/
def searchParallel13 (stop : Nat → Bool) (flush : Nat → Bool) (safeguard : Nat)
    (jobs : List Job) : CollectState :=
  let total := jobs.length
  let init : CollectState := ⟨[], 0, 0, if total = 0 then [0] else []⟩
  let fin := collectLoop stop flush safeguard total jobs init
  { fin with trace := fin.trace ++ [if total = 0 then 0 else 1] }

/-- Terminal state of a scan as the caller of 13.py derives it: cancelled
exactly when the stop token is observed set once the scan has returned. -/
inductive ScanOutcome
  | completed
  | cancelled
deriving DecidableEq, Repr

/-- status: cancelled if stopevent.is_set() else success. -/
def scanOutcome (stop : Nat → Bool) (endTime : Nat) : ScanOutcome :=
  if stop endTime then .cancelled else .completed

/-- The per-line loop of the Appsec search over the raw lines of one file,
carrying the multi-line comment state; records are (1-based line number,
recorded text), the recorded text being the raw line with trailing newlines
stripped, before any comment stripping or case normalization. -/
def appsecScanAux (cfg : AppsecCfg) :
    Option (List Char) → Nat → List (List Char) → List (Nat × List Char)
  | _, _, [] => []
  | st, i, raw :: rest =>
      let original := rstripNewline raw
      if cfg.ignoreComments then
        match appsecProcessLine cfg.multiTokens cfg.singleMarkers st original with
        | (st1, none) => appsecScanAux cfg st1 (i + 1) rest
        | (st1, some processed) =>
            (if appsecMatchLine cfg processed then [(i, original)] else []) ++
              appsecScanAux cfg st1 (i + 1) rest
      else
        (if appsecMatchLine cfg original then [(i, original)] else []) ++
          appsecScanAux cfg st (i + 1) rest

/-- search_in_files of the Appsec variant restricted to one file. -/
def appsecScanFile (cfg : AppsecCfg) (rawLines : List (List Char)) : List (Nat × List Char) :=
  appsecScanAux cfg none 1 rawLines

/-- The progress fraction of the Appsec variant: scanned divided by the
clamped total max 1 total_files. -/
def appsecProgressFrac (scanned total : Nat) : ℚ :=
  (scanned : ℚ) / (max 1 total : ℚ)

/-- The per-file loop of the Appsec search without cancellation: records
tagged with the 1-based file index, plus the emitted progress fractions. -/
def appsecLoop (cfg : AppsecCfg) (total : Nat) :
    Nat → List (List (List Char)) → List (Nat × Nat × List Char) × List ℚ
  | _, [] => ([], [])
  | idx, f :: rest =>
      let recs := (appsecScanFile cfg f).map fun r => (idx, r.1, r.2)
      let (rs, tr) := appsecLoop cfg total (idx + 1) rest
      (recs ++ rs, appsecProgressFrac idx total :: tr)

/-- search_in_files of the Appsec variant over a list of files given as line
lists: results, scanned count, total count, emitted progress fractions. -/
def appsecSearchFiles (cfg : AppsecCfg) (files : List (List (List Char))) :
    List (Nat × Nat × List Char) × Nat × Nat × List ℚ :=
  let total := files.length
  let (rs, tr) := appsecLoop cfg total 1 files
  (rs, total, total, tr)

/- ------------------------------------------------------------------
Lemmas about the context-window gathering loops.
------------------------------------------------------------------ -/

theorem gatherBeforeLength (isC : List Char → Bool) :
    ∀ (n : Nat) (l : List (List Char)),
      (gatherBefore isC n l).length = min n (l.countP fun x => !isC x) := by
  intro n l
  induction l generalizing n with
  | nil => simp [gatherBefore]
  | cons x rest ih =>
      by_cases hn : n = 0
      · subst hn; simp [gatherBefore]
      · by_cases hc : isC x
        · simp [gatherBefore, hn, hc, List.countP_cons, ih]
        · simp only [gatherBefore, if_neg hn, if_neg hc]
          rw [List.length_append, ih]
          simp only [List.countP_cons, List.length_singleton]
          simp [hc]
          omega

theorem gatherBeforeContent (isC : List Char → Bool) :
    ∀ (n : Nat) (l : List (List Char)) (x : List Char),
      x ∈ gatherBefore isC n l → isC x = false := by
  intro n l
  induction l generalizing n with
  | nil => simp [gatherBefore]
  | cons y rest ih =>
      intro x hx
      by_cases hn : n = 0
      · subst hn; simp [gatherBefore] at hx
      · by_cases hc : isC y
        · simp only [gatherBefore, if_neg hn, if_pos hc] at hx
          exact ih _ _ hx
        · simp only [gatherBefore, if_neg hn, if_neg hc, List.mem_append,
            List.mem_singleton] at hx
          rcases hx with h | h
          · exact ih _ _ h
          · subst h; simp [hc]

theorem gatherAfterLength (isC : List Char → Bool) :
    ∀ (n : Nat) (l : List (List Char)),
      (gatherAfter isC n l).length = min n (l.countP fun x => !isC x) := by
  intro n l
  induction l generalizing n with
  | nil => simp [gatherAfter]
  | cons x rest ih =>
      by_cases hn : n = 0
      · subst hn; simp [gatherAfter]
      · by_cases hc : isC x
        · simp [gatherAfter, hn, hc, List.countP_cons, ih]
        · simp only [gatherAfter, if_neg hn, if_neg hc]
          rw [List.length_cons, ih]
          simp only [List.countP_cons]
          simp [hc]
          omega

theorem gatherAfterContent (isC : List Char → Bool) :
    ∀ (n : Nat) (l : List (List Char)) (x : List Char),
      x ∈ gatherAfter isC n l → isC x = false := by
  intro n l
  induction l generalizing n with
  | nil => simp [gatherAfter]
  | cons y rest ih =>
      intro x hx
      by_cases hn : n = 0
      · subst hn; simp [gatherAfter] at hx
      · by_cases hc : isC y
        · simp only [gatherAfter, if_neg hn, if_pos hc] at hx
          exact ih _ _ hx
        · simp only [gatherAfter, if_neg hn, if_neg hc, List.mem_cons] at hx
          rcases hx with h | h
          · subst h; simp [hc]
          · exact ih _ _ h

/-- A ten-line file of pure content lines, the file of the spec example. -/
def exampleLines10 : List (List Char) :=
  (List.range 10).map fun k => ("l" ++ toString (k + 1)).toList

/-- The same file with line 4 replaced by a pure comment line. -/
def exampleLines10c : List (List Char) :=
  (List.range 10).map fun k =>
    if k = 3 then ("# c").toList else ("l" ++ toString (k + 1)).toList

/-- The worker configuration of the spec example: subscan on, before 2,
after 1, comment-ignoring on. -/
def exampleCfgC5 : Cfg13 :=
  ⟨("l5").toList, true, [], 2, 1, false, false, false, ("Yes").toList⟩

/-- Claim C5: with context extraction enabled (before N, after M) and
comment-ignoring on, the assembled context block is the matched line together
with min(N, available) content lines before and min(M, available) content
lines after; pure comment lines are skipped and never consume a window slot,
and the window is bounded by file start and end.  In particular before=2,
after=1, match on line 5 of a 10-line content-only file yields lines
[3,4,5,6], and with line 4 a pure comment the window is [2,3,5,6]. -/
theorem claimC5ContextWindow :
    (∀ (cfg : Cfg13) (lines : List (List Char)) (idx : Nat),
      ∃ B A,
        buildWindow cfg lines idx = B ++ [lines.getD (idx - 1) []] ++ A ∧
        B.length = min cfg.before ((lines.take (idx - 1)).countP fun x => !isC13 cfg x) ∧
        A.length = min cfg.after ((lines.drop idx).countP fun x => !isC13 cfg x) ∧
        (∀ x ∈ B, isC13 cfg x = false) ∧ (∀ x ∈ A, isC13 cfg x = false)) ∧
    processOne13 exampleCfgC5 exampleLines10 5 (("l5").toList) =
      [(5, ("l5").toList,
        [("l3").toList, ("l4").toList, ("l5").toList, ("l6").toList])] ∧
    processOne13 exampleCfgC5 exampleLines10c 5 (("l5").toList) =
      [(5, ("l5").toList,
        [("l2").toList, ("l3").toList, ("l5").toList, ("l6").toList])] := by
  refine ⟨?_, by decide, by decide⟩
  intro cfg lines idx
  refine ⟨_, _, rfl, ?_, ?_, ?_, ?_⟩
  · rw [gatherBeforeLength]
    simp [List.countP_reverse]
  · rw [gatherAfterLength]
  · exact gatherBeforeContent _ _ _
  · exact gatherAfterContent _ _ _

/- ------------------------------------------------------------------
Characterizations of the string primitives.
------------------------------------------------------------------ -/

theorem startsWithCharsIff : ∀ (p l : List Char),
    startsWithChars p l = true ↔ ∃ t, l = p ++ t := by
  intro p
  induction p with
  | nil => intro l; simp [startsWithChars]
  | cons p ps ih =>
      intro l
      cases l with
      | nil => simp [startsWithChars]
      | cons c cs =>
          simp only [startsWithChars, Bool.and_eq_true, decide_eq_true_eq, ih,
            List.cons_append, List.cons.injEq]
          constructor
          · rintro ⟨hpc, t, ht⟩; exact ⟨t, hpc.symm, ht⟩
          · rintro ⟨t, hpc, ht⟩; exact ⟨hpc.symm, t, ht⟩

theorem endsWithCharsIff : ∀ (s l : List Char),
    endsWithChars s l = true ↔ ∃ pre, l = pre ++ s := by
  intro s l
  unfold endsWithChars
  rw [startsWithCharsIff]
  constructor
  · rintro ⟨t, ht⟩
    refine ⟨t.reverse, ?_⟩
    have := congrArg List.reverse ht
    simpa [List.reverse_append] using this
  · rintro ⟨pre, rfl⟩
    exact ⟨pre.reverse, by simp [List.reverse_append]⟩

/-- Claim C7: under a non-all extension filter, a discovered file qualifies
iff its name ends with some configured suffix, both sides lowered before
comparison (iter_files of 13.py). -/
theorem claimC7ExtensionFilter :
    ∀ (extensions : List (List Char)) (files : List (List Char)) (fn : List Char),
      extensions ≠ [] → ("All").toList ∉ extensions →
      (fn ∈ iterFiles extensions files ↔
        fn ∈ files ∧ ∃ e ∈ extensions, ∃ pre, pyLower fn = pre ++ pyLower e) := by
  intro extensions files fn hne hall
  have hcond : ¬(extensions = [] ∨ ("All").toList ∈ extensions) := by
    rintro (h | h)
    · exact hne h
    · exact hall h
  unfold iterFiles
  rw [List.mem_filter]
  constructor
  · rintro ⟨hmem, hkeep⟩
    refine ⟨hmem, ?_⟩
    unfold iterFilesKeep at hkeep
    rw [if_neg hcond] at hkeep
    simp only [List.any_eq_true, List.mem_map] at hkeep
    rcases hkeep with ⟨e', ⟨e, he, rfl⟩, hend⟩
    rcases (endsWithCharsIff _ _).mp hend with ⟨pre, hpre⟩
    exact ⟨e, he, pre, hpre⟩
  · rintro ⟨hmem, e, he, pre, hpre⟩
    refine ⟨hmem, ?_⟩
    unfold iterFilesKeep
    rw [if_neg hcond]
    simp only [List.any_eq_true, List.mem_map]
    exact ⟨pyLower e, ⟨e, he, rfl⟩, (endsWithCharsIff _ _).mpr ⟨pre, hpre⟩⟩

/-- Witness for claim C7 at a concrete input: the file A.py qualifies under
the suffix filter .PY by case-insensitive suffix comparison. -/
theorem claimC7Witness : ("A.py").toList ∈ iterFiles [(".PY").toList] [("A.py").toList] :=
  (claimC7ExtensionFilter [(".PY").toList] [("A.py").toList] (("A.py").toList)
      (by decide) (by decide)).mpr
    ⟨by decide, (".PY").toList, by decide, ("a").toList, by decide⟩

/- ------------------------------------------------------------------
Lemmas about the collection loop.
------------------------------------------------------------------ -/

theorem collectStepResults (flush : Nat → Bool) (total : Nat) (j : Job) (st : CollectState) :
    (collectStep flush total j st).results = st.results ++ j.result := by
  unfold collectStep
  by_cases h : j.result = []
  · simp [h]
    split <;> simp
  · simp only [h, ne_eq, not_false_eq_true, if_true]
    split <;> simp

theorem collectStepScanned (flush : Nat → Bool) (total : Nat) (j : Job) (st : CollectState) :
    (collectStep flush total j st).scanned = st.scanned + 1 := by
  unfold collectStep
  by_cases h : j.result = []
  · simp [h]
    split <;> simp
  · simp only [h, ne_eq, not_false_eq_true, if_true]
    split <;> simp

theorem collectLoopNoCap (stop flush : Nat → Bool) (total : Nat) :
    ∀ (jobs : List Job) (st : CollectState),
      (collectLoop stop flush 0 total jobs st).results =
        st.results ++ (jobs.map fun j => if stop j.ct then [] else j.result).flatten ∧
      (collectLoop stop flush 0 total jobs st).scanned =
        st.scanned + (jobs.countP fun j => !stop j.ct) := by
  intro jobs
  induction jobs with
  | nil => intro st; simp [collectLoop]
  | cons j rest ih =>
      intro st
      by_cases hstop : stop j.ct = true
      · have hloop : collectLoop stop flush 0 total (j :: rest) st =
            collectLoop stop flush 0 total rest st := by
          simp [collectLoop, hstop]
        rw [hloop]
        have h1 := ih st
        refine ⟨?_, ?_⟩
        · rw [h1.1]; simp [hstop]
        · rw [h1.2]; simp [List.countP_cons, hstop]
      · have hne' : ¬(0 > 0 ∧ (collectStep flush total j st).scanned ≥ 0) := by omega
        have hloop : collectLoop stop flush 0 total (j :: rest) st =
            collectLoop stop flush 0 total rest (collectStep flush total j st) := by
          simp [collectLoop, hstop, hne']
        rw [hloop]
        have h1 := ih (collectStep flush total j st)
        have hb : stop j.ct = false := by simpa using hstop
        refine ⟨?_, ?_⟩
        · rw [h1.1, collectStepResults]
          simp [hb, List.append_assoc]
        · rw [h1.2, collectStepScanned]
          simp [List.countP_cons, hb]
          omega

/-- Claim C8: a file whose open/read/decode fails is swallowed: its worker
returns zero match records (read_text_lines maps a failure to the empty line
list), no error reaches the collection loop, the scan continues with the
remaining files, and every collected file, the failed one included, is
counted by the scanned counter. -/
theorem claimC8ReadFailureSwallowed :
    (∀ (stop : Nat → Bool) (t : Nat → Nat) (cfg : Cfg13),
        worker13Stop stop t cfg none = []) ∧
    readTextLines none = [] ∧
    (∀ (flush : Nat → Bool) (jobs : List Job),
        (searchParallel13 (fun _ => false) flush 0 jobs).scanned = jobs.length ∧
        (searchParallel13 (fun _ => false) flush 0 jobs).results =
          (jobs.map Job.result).flatten) := by
  refine ⟨?_, rfl, ?_⟩
  · intro stop t cfg
    unfold worker13Stop
    split
    · rfl
    · rfl
  · intro flush jobs
    have h := collectLoopNoCap (fun _ => false) flush jobs.length jobs
      ⟨[], 0, 0, if jobs.length = 0 then [0] else []⟩
    unfold searchParallel13
    refine ⟨?_, ?_⟩
    · simp only []
      rw [h.2]
      simp [List.countP_true]
    · simp only []
      rw [h.1]
      simp

/-- Claim C10: a scan whose discovery yields zero files terminates normally
with an empty result list, scanned 0 and total 0, and every emitted progress
value is 0: the parallel engine takes the zero-total branch (emitting 0.0
twice), and the Appsec engine emits nothing while its fraction denominator
is clamped to at least one and its zero-scanned fraction is 0. -/
theorem claimC10EmptyDiscovery :
    (∀ (stop flush : Nat → Bool) (safeguard : Nat),
        searchParallel13 stop flush safeguard [] = ⟨[], 0, 0, [0, 0]⟩) ∧
    (∀ cfg, appsecSearchFiles cfg [] = ([], 0, 0, [])) ∧
    (∀ total : Nat, (1 : ℚ) ≤ ((max 1 total : Nat) : ℚ)) ∧
    (∀ total : Nat, appsecProgressFrac 0 total = 0) := by
  refine ⟨?_, ?_, ?_, ?_⟩
  · intro stop flush safeguard; rfl
  · intro cfg; rfl
  · intro total
    have h : 1 ≤ max 1 total := le_max_left 1 total
    exact_mod_cast h
  · intro total; simp [appsecProgressFrac]

theorem collectLoopCap (flush : Nat → Bool) (s total : Nat) :
    ∀ (jobs : List Job) (st : CollectState), 0 < s → st.scanned < s →
      (collectLoop (fun _ => false) flush s total jobs st).scanned =
          st.scanned + min jobs.length (s - st.scanned) ∧
      (collectLoop (fun _ => false) flush s total jobs st).results =
          st.results ++
            ((jobs.take (min jobs.length (s - st.scanned))).map Job.result).flatten := by
  intro jobs
  induction jobs with
  | nil => intro st hs hlt; simp [collectLoop]
  | cons j rest ih =>
      intro st hs hlt
      have hscan3 : (collectStep flush total j st).scanned = st.scanned + 1 :=
        collectStepScanned _ _ _ _
      have hres3 : (collectStep flush total j st).results = st.results ++ j.result :=
        collectStepResults _ _ _ _
      by_cases hbreak : st.scanned + 1 ≥ s
      · have hcond : s > 0 ∧ (collectStep flush total j st).scanned ≥ s :=
          ⟨hs, by omega⟩
        have hloop : collectLoop (fun _ => false) flush s total (j :: rest) st =
            collectStep flush total j st := by
          simp [collectLoop, hcond]
        rw [hloop]
        have hk : min (j :: rest).length (s - st.scanned) = 1 := by
          simp [List.length_cons]; omega
        refine ⟨?_, ?_⟩
        · rw [hscan3, hk]
        · rw [hres3, hk]; simp
      · have hcond : ¬(s > 0 ∧ (collectStep flush total j st).scanned ≥ s) := by
          intro h
          rw [hscan3] at h
          omega
        have hloop : collectLoop (fun _ => false) flush s total (j :: rest) st =
            collectLoop (fun _ => false) flush s total rest (collectStep flush total j st) := by
          simp [collectLoop, hcond]
        rw [hloop]
        have h1 := ih (collectStep flush total j st) hs (by omega)
        refine ⟨?_, ?_⟩
        · rw [h1.1, hscan3]
          simp only [List.length_cons]
          omega
        · rw [h1.2, hres3, hscan3]
          have hk : min (j :: rest).length (s - st.scanned) =
              min rest.length (s - (st.scanned + 1)) + 1 := by
            simp only [List.length_cons]; omega
          rw [hk, List.take_succ_cons]
          simp [List.append_assoc]

/-- Claim C3: with a non-zero safeguard cap and no cancellation, collection
stops once the cumulative scanned-file count reaches the cap: scanned is
min(total, cap), the result list holds exactly the records of the files
collected up to the cap, and the scan terminates in the Completed, not
Cancelled, state; the cap never sets the cancellation token. -/
theorem claimC3SafeguardCap :
    ∀ (flush : Nat → Bool) (s : Nat) (jobs : List Job) (endTime : Nat), 0 < s →
      (searchParallel13 (fun _ => false) flush s jobs).scanned = min jobs.length s ∧
      (searchParallel13 (fun _ => false) flush s jobs).results =
        ((jobs.take (min jobs.length s)).map Job.result).flatten ∧
      scanOutcome (fun _ => false) endTime = ScanOutcome.completed := by
  intro flush s jobs endTime hs
  have h := collectLoopCap flush s jobs.length jobs
    ⟨[], 0, 0, if jobs.length = 0 then [0] else []⟩ hs (by simpa using hs)
  unfold searchParallel13
  refine ⟨?_, ?_, rfl⟩
  · simp only []
    rw [h.1]
    simp
  · simp only []
    rw [h.2]
    simp

/-- The three completed jobs of the claim C3 witness scan. -/
def jobsC3 : List Job :=
  [⟨[(1, ("a").toList, [])], 0⟩, ⟨[(1, ("b").toList, [])], 0⟩,
    ⟨[(1, ("c").toList, [])], 0⟩]

/-- Witness for claim C3: three completed files under cap 2 give a Completed
scan with scanned 2 and only the records of the first two files. -/
theorem claimC3Witness :
    (searchParallel13 (fun _ => false) (fun _ => true) 2 jobsC3).scanned = 2 ∧
    (searchParallel13 (fun _ => false) (fun _ => true) 2 jobsC3).results =
      [(1, ("a").toList, []), (1, ("b").toList, [])] ∧
    scanOutcome (fun _ => false) 99 = ScanOutcome.completed := by
  have h := claimC3SafeguardCap (fun _ => true) 2 jobsC3 99 (by decide)
  refine ⟨?_, ?_, h.2.2⟩
  · rw [h.1]; decide
  · rw [h.2.1]; decide

/- ------------------------------------------------------------------
Lemmas about the cancellation checkpoints of the worker.
------------------------------------------------------------------ -/

theorem goStopCut (stop : Nat → Bool) (t : Nat → Nat) (cfg : Cfg13)
    (lines : List (List Char)) (j : Nat) :
    ∀ (rest : List (List Char)) (idx : Nat), idx ≤ j → stop (t j) = true →
      (∀ i, idx ≤ i → i < j → stop (t i) = false) →
      worker13GoStop stop t cfg lines idx rest =
        worker13Go cfg lines idx (rest.take (j - idx)) := by
  intro rest
  induction rest with
  | nil => intro idx _ _ _; simp [worker13GoStop, worker13Go]
  | cons raw rest' ih =>
      intro idx hle hj hlow
      by_cases hij : idx = j
      · have hstopIdx : stop (t idx) = true := by rw [hij]; exact hj
        have hz : j - idx = 0 := by omega
        simp [worker13GoStop, hstopIdx, hz, worker13Go]
      · have hlt : idx < j := by omega
        have hfalse : stop (t idx) = false := hlow idx (le_refl idx) hlt
        have htake : j - idx = (j - (idx + 1)) + 1 := by omega
        rw [htake, List.take_succ_cons]
        simp only [worker13GoStop, hfalse, Bool.false_eq_true, if_false, worker13Go]
        rw [ih (idx + 1) (by omega) hj (fun i h1 h2 => hlow i (by omega) h2)]

theorem goStopNoStop (stop : Nat → Bool) (t : Nat → Nat) (cfg : Cfg13)
    (lines : List (List Char)) :
    ∀ (rest : List (List Char)) (idx : Nat),
      (∀ i, idx ≤ i → i < idx + rest.length → stop (t i) = false) →
      worker13GoStop stop t cfg lines idx rest = worker13Go cfg lines idx rest := by
  intro rest
  induction rest with
  | nil => intro idx _; simp [worker13GoStop, worker13Go]
  | cons raw rest' ih =>
      intro idx hlow
      have hlen : (raw :: rest').length = rest'.length + 1 := List.length_cons _ _
      have hfalse : stop (t idx) = false := hlow idx (le_refl idx) (by omega)
      simp only [worker13GoStop, hfalse, Bool.false_eq_true, if_false, worker13Go]
      rw [ih (idx + 1) (fun i h1 h2 => hlow i (by omega) (by omega))]

theorem workerFullWhenUnstopped (stop : Nat → Bool) (t : Nat → Nat) (cfg : Cfg13)
    (content : Option (List (List Char))) :
    (∀ i, i ≤ (readTextLines content).length → stop (t i) = false) →
    worker13Stop stop t cfg content = worker13Pure cfg (readTextLines content) := by
  intro hall
  unfold worker13Stop worker13Pure
  rw [if_neg (by simp [hall 0 (Nat.zero_le _)])]
  exact goStopNoStop stop t cfg _ _ 1 fun i h1 h2 => hall i (by omega)

/-- A set-once cancellation token: once observed set it stays set. -/
def StopMono (stop : Nat → Bool) : Prop :=
  ∀ a b : Nat, a ≤ b → stop a = true → stop b = true

/-- One file of a cancelled scan: its content (none models a read failure),
the global times of its worker checkpoints (t 0 the entry checkpoint, t i
the checkpoint before line i), and the time its future is collected. -/
structure FileRun where
  content : Option (List (List Char))
  t : Nat → Nat
  ct : Nat

/-- The completed future the coordinator collects for one file. -/
def mkJob (stop : Nat → Bool) (cfg : Cfg13) (f : FileRun) : Job :=
  ⟨worker13Stop stop f.t cfg f.content, f.ct⟩

/-- Claim C2: with a set-once token whose worker checkpoints precede each
file's collection, (1) a worker whose entry checkpoint sees the token set
returns nothing, (2) a worker first seeing the token set at the line-j
checkpoint exits there, having processed exactly lines 1..j-1, and (3) the
final result list keeps exactly the full record lists of the files collected
while the token was unset: partially accumulated matches of interrupted
files never reach the final list, and every file collected before
cancellation contributes its complete records. -/
theorem claimC2Cancellation :
    ∀ (stop flush : Nat → Bool) (cfg : Cfg13) (files : List FileRun),
      StopMono stop →
      (∀ f ∈ files, ∀ i, i ≤ (readTextLines f.content).length → f.t i ≤ f.ct) →
      (∀ f : FileRun, stop (f.t 0) = true → worker13Stop stop f.t cfg f.content = []) ∧
      (∀ (f : FileRun) (j : Nat), 1 ≤ j → j ≤ (readTextLines f.content).length →
          stop (f.t j) = true → (∀ i, i < j → stop (f.t i) = false) →
          worker13Stop stop f.t cfg f.content =
            worker13Go cfg (readTextLines f.content) 1
              ((readTextLines f.content).take (j - 1))) ∧
      ((searchParallel13 stop flush 0 (files.map (mkJob stop cfg))).results =
        (files.map fun f =>
          if stop f.ct then [] else worker13Pure cfg (readTextLines f.content)).flatten) := by
  intro stop flush cfg files hmono hct
  refine ⟨?_, ?_, ?_⟩
  · intro f hset
    unfold worker13Stop
    rw [if_pos hset]
  · intro f j hj1 hjlen hjset hlow
    unfold worker13Stop
    rw [if_neg (by simp [hlow 0 (by omega)])]
    exact goStopCut stop f.t cfg _ j _ 1 hj1 hjset fun i h1 h2 => hlow i h2
  · have h := collectLoopNoCap stop flush (files.map (mkJob stop cfg)).length
      (files.map (mkJob stop cfg))
      ⟨[], 0, 0, if (files.map (mkJob stop cfg)).length = 0 then [0] else []⟩
    unfold searchParallel13
    simp only []
    rw [h.1]
    simp only [List.nil_append, List.map_map]
    congr 1
    apply List.map_congr_left
    intro f hf
    simp only [Function.comp]
    by_cases hstop : stop f.ct = true
    · simp [mkJob, hstop]
    · have hb : stop f.ct = false := by simpa using hstop
      simp only [mkJob, hb, Bool.false_eq_true, if_false]
      apply workerFullWhenUnstopped
      intro i hi
      by_cases hsi : stop (f.t i) = true
      · have := hmono (f.t i) f.ct (hct f hf i hi) hsi
        rw [this] at hb
        exact absurd hb (by simp)
      · simpa using hsi

/-- The set-once token of the claim C2 witness scan: set from time 3 on. -/
def stopC2 : Nat → Bool := fun n => decide (3 ≤ n)

/-- Witness file 1: fully processed and collected (time 1) before the token
is set. -/
def fileC2a : FileRun := ⟨some [("a\n").toList], fun i => min i 1, 1⟩

/-- Witness file 2: its worker sees the token already set at the entry
checkpoint (time 3) and its future is collected at time 10. -/
def fileC2b : FileRun :=
  ⟨some [("a1\n").toList, ("a2\n").toList], fun i => i + 3, 10⟩

/-- Witness configuration: case-sensitive substring search for a. -/
def cfgC2 : Cfg13 :=
  ⟨("a").toList, false, [], 0, 0, false, false, true, ("No").toList⟩

/-- Witness for claim C2: in the concrete cancelled scan, the interrupted
second file contributes nothing while the first file, collected before
cancellation, keeps its full match record. -/
theorem claimC2Witness :
    (searchParallel13 stopC2 (fun _ => true) 0
        ([fileC2a, fileC2b].map (mkJob stopC2 cfgC2))).results =
      [(1, ("a").toList, [])] := by
  have hmono : StopMono stopC2 := by
    intro a b hab h
    simp only [stopC2, decide_eq_true_eq] at *
    omega
  have hct : ∀ f ∈ [fileC2a, fileC2b], ∀ i, i ≤ (readTextLines f.content).length →
      f.t i ≤ f.ct := by
    intro f hf i hi
    rcases List.mem_cons.mp hf with rfl | hf2
    · show min i 1 ≤ 1
      omega
    · rcases List.mem_singleton.mp hf2 with rfl
      show i + 3 ≤ 10
      have hlen : (readTextLines fileC2b.content).length = 2 := by rfl
      omega
  have h := (claimC2Cancellation stopC2 (fun _ => true) cfgC2 [fileC2a, fileC2b]
    hmono hct).2.2
  rw [h]
  decide

/- ------------------------------------------------------------------
Record-text preservation.
------------------------------------------------------------------ -/

theorem processOne13Mem (cfg : Cfg13) (lines : List (List Char)) (idx : Nat)
    (raw : List Char) (rec : Rec13) (h : rec ∈ processOne13 cfg lines idx raw) :
    rec.1 = idx ∧ rec.2.1 = rstripNewline raw := by
  simp only [processOne13] at h
  split at h
  · simp at h
  · split at h
    · simp at h
    · split at h
      · split at h
        · simp only [List.mem_singleton] at h
          subst h
          exact ⟨rfl, rfl⟩
        · simp at h
      · simp only [List.mem_singleton] at h
        subst h
        exact ⟨rfl, rfl⟩

theorem worker13GoRecords (cfg : Cfg13) (lines : List (List Char)) :
    ∀ (rest : List (List Char)) (idx : Nat) (rec : Rec13),
      rec ∈ worker13Go cfg lines idx rest →
      ∃ k raw, rest[k]? = some raw ∧ rec.1 = idx + k ∧ rec.2.1 = rstripNewline raw := by
  intro rest
  induction rest with
  | nil => intro idx rec h; simp [worker13Go] at h
  | cons raw rest' ih =>
      intro idx rec h
      simp only [worker13Go, List.mem_append] at h
      rcases h with h | h
      · rcases processOne13Mem cfg lines idx raw rec h with ⟨h1, h2⟩
        exact ⟨0, raw, by simp, by omega, h2⟩
      · rcases ih (idx + 1) rec h with ⟨k, raw', hk, hrec, htext⟩
        exact ⟨k + 1, raw', by simpa using hk, by omega, htext⟩

theorem appsecScanAuxCons (cfg : AppsecCfg) (st : Option (List Char)) (i : Nat)
    (raw : List Char) (rest' : List (List Char)) :
    ∃ (hd : List (Nat × List Char)) (st1 : Option (List Char)),
      appsecScanAux cfg st i (raw :: rest') = hd ++ appsecScanAux cfg st1 (i + 1) rest' ∧
      (hd = [] ∨ hd = [(i, rstripNewline raw)]) := by
  simp only [appsecScanAux]
  by_cases hic : cfg.ignoreComments = true
  · rw [if_pos hic]
    rcases hp : appsecProcessLine cfg.multiTokens cfg.singleMarkers st (rstripNewline raw)
      with ⟨st1, proc⟩
    cases proc with
    | none => exact ⟨[], st1, by simp, Or.inl rfl⟩
    | some processed =>
        by_cases hm : appsecMatchLine cfg processed = true
        · exact ⟨[(i, rstripNewline raw)], st1, by simp [hm], Or.inr rfl⟩
        · exact ⟨[], st1, by simp [hm], Or.inl rfl⟩
  · rw [if_neg hic]
    by_cases hm : appsecMatchLine cfg (rstripNewline raw) = true
    · exact ⟨[(i, rstripNewline raw)], st, by simp [hm], Or.inr rfl⟩
    · exact ⟨[], st, by simp [hm], Or.inl rfl⟩

theorem appsecScanAuxRecords (cfg : AppsecCfg) :
    ∀ (rest : List (List Char)) (st : Option (List Char)) (i : Nat) (rec : Nat × List Char),
      rec ∈ appsecScanAux cfg st i rest →
      ∃ k raw, rest[k]? = some raw ∧ rec.1 = i + k ∧ rec.2 = rstripNewline raw := by
  intro rest
  induction rest with
  | nil => intro st i rec h; simp [appsecScanAux] at h
  | cons raw rest' ih =>
      intro st i rec h
      rcases appsecScanAuxCons cfg st i raw rest' with ⟨hd, st1, heq, hhd⟩
      rw [heq, List.mem_append] at h
      rcases h with h | h
      · rcases hhd with rfl | rfl
        · simp at h
        · simp only [List.mem_singleton] at h
          subst h
          exact ⟨0, raw, by simp, by omega, rfl⟩
      · rcases ih st1 (i + 1) rec h with ⟨k, raw', hk, hrec, htext⟩
        exact ⟨k + 1, raw', by simpa using hk, by omega, htext⟩

/-- Claim C9: every produced match record stores the original physical line
with only its trailing newline removed; comment stripping and case
normalization decide whether a line matches but never alter the stored text.
This holds for the Appsec per-line pipeline and for the 13.py worker. -/
theorem claimC9RecordTextRaw :
    (∀ (cfg : AppsecCfg) (rawLines : List (List Char)) (rec : Nat × List Char),
        rec ∈ appsecScanFile cfg rawLines →
        ∃ raw, rawLines[rec.1 - 1]? = some raw ∧ rec.2 = rstripNewline raw) ∧
    (∀ (cfg : Cfg13) (lines : List (List Char)) (rec : Rec13),
        rec ∈ worker13Pure cfg lines →
        ∃ raw, lines[rec.1 - 1]? = some raw ∧ rec.2.1 = rstripNewline raw) := by
  constructor
  · intro cfg rawLines rec h
    rcases appsecScanAuxRecords cfg rawLines none 1 rec h with ⟨k, raw, hk, hrec, htext⟩
    refine ⟨raw, ?_, htext⟩
    rw [hrec]
    simpa using hk
  · intro cfg lines rec h
    rcases worker13GoRecords cfg lines lines 1 rec h with ⟨k, raw, hk, hrec, htext⟩
    refine ⟨raw, ?_, htext⟩
    rw [hrec]
    simpa using hk

/-- Witness for claim C9: a concrete Appsec scan record stores the raw line
with its trailing newline removed. -/
theorem claimC9Witness :
    ∃ raw, [("foo\n").toList][(1 : Nat) - 1]? = some raw ∧
      ("foo").toList = rstripNewline raw :=
  claimC9RecordTextRaw.1
    ⟨("foo").toList, false, false, false, false, [], []⟩
    [("foo\n").toList] (1, ("foo").toList) (by decide)

/- ------------------------------------------------------------------
Soundness of the quote-aware single-line marker scanner.
------------------------------------------------------------------ -/

theorem findMarkerHereSome :
    ∀ (ms : List (List Char)) (suf m : List Char),
      findMarkerHere ms suf = some m → m ∈ ms ∧ startsWithChars m suf = true := by
  intro ms
  induction ms with
  | nil => intro suf m h; simp [findMarkerHere] at h
  | cons x xs ih =>
      intro suf m h
      simp only [findMarkerHere] at h
      split at h
      · injection h with h'
        subst h'
        exact ⟨List.mem_cons_self _ _, by assumption⟩
      · rcases ih suf m h with ⟨h1, h2⟩
        exact ⟨List.mem_cons_of_mem _ h1, h2⟩

theorem memInsertByLenDesc :
    ∀ (xs : List (List Char)) (m x : List Char),
      x ∈ insertByLenDesc m xs → x = m ∨ x ∈ xs := by
  intro xs
  induction xs with
  | nil => intro m x h; simp [insertByLenDesc] at h; exact Or.inl h
  | cons y ys ih =>
      intro m x h
      simp only [insertByLenDesc] at h
      split at h
      · rcases List.mem_cons.mp h with rfl | h2
        · exact Or.inl rfl
        · exact Or.inr h2
      · rcases List.mem_cons.mp h with rfl | h2
        · exact Or.inr (List.mem_cons_self _ _)
        · rcases ih m x h2 with h3 | h3
          · exact Or.inl h3
          · exact Or.inr (List.mem_cons_of_mem _ h3)

theorem memSortMarkersDesc :
    ∀ (markers : List (List Char)) (x : List Char),
      x ∈ sortMarkersDesc markers → x ∈ markers := by
  have haux : ∀ (markers acc : List (List Char)) (x : List Char),
      x ∈ markers.foldl (fun a m => insertByLenDesc m a) acc → x ∈ acc ∨ x ∈ markers := by
    intro markers
    induction markers with
    | nil => intro acc x h; exact Or.inl h
    | cons m ms ih =>
        intro acc x h
        simp only [List.foldl_cons] at h
        rcases ih (insertByLenDesc m acc) x h with h2 | h2
        · rcases memInsertByLenDesc acc m x h2 with h3 | h3
          · exact Or.inr (h3 ▸ List.mem_cons_self _ _)
          · exact Or.inl h3
        · exact Or.inr (List.mem_cons_of_mem _ h2)
  intro markers x h
  rcases haux markers [] x h with h2 | h2
  · simp at h2
  · exact h2

theorem fumAuxSound (sorted : List (List Char)) :
    ∀ (l : List Char) (s : QState) (i j : Nat) (m : List Char),
      fumAux sorted s i l = some (j, m) →
      ∃ k, j = i + k ∧ (l.take k).foldl qstep s = qInit ∧
        findMarkerHere sorted (l.drop k) = some m := by
  intro l
  induction l with
  | nil => intro s i j m h; simp [fumAux] at h
  | cons c rest ih =>
      intro s i j m h
      simp only [fumAux] at h
      split at h
      next he =>
        rcases ih _ _ _ _ h with ⟨k, hk, hfold, hfind⟩
        refine ⟨k + 1, by omega, ?_, by simpa using hfind⟩
        have hq : qstep s c = ⟨s.inS, s.inD, false⟩ := by simp [qstep, he]
        rw [List.take_succ_cons, List.foldl_cons, hq]
        exact hfold
      next he1 =>
        split at h
        next he2 =>
          rcases ih _ _ _ _ h with ⟨k, hk, hfold, hfind⟩
          refine ⟨k + 1, by omega, ?_, by simpa using hfind⟩
          have hq : qstep s c = ⟨s.inS, s.inD, true⟩ := by simp [qstep, he1, he2]
          rw [List.take_succ_cons, List.foldl_cons, hq]
          exact hfold
        next he2 =>
          split at h
          next he3 =>
            rcases ih _ _ _ _ h with ⟨k, hk, hfold, hfind⟩
            refine ⟨k + 1, by omega, ?_, by simpa using hfind⟩
            have hq : qstep s c = ⟨true, s.inD, false⟩ := by simp [qstep, he1, he2, he3]
            rw [List.take_succ_cons, List.foldl_cons, hq]
            exact hfold
          next he3 =>
            split at h
            next he4 =>
              rcases ih _ _ _ _ h with ⟨k, hk, hfold, hfind⟩
              refine ⟨k + 1, by omega, ?_, by simpa using hfind⟩
              have hq : qstep s c = ⟨false, s.inD, false⟩ := by
                simp [qstep, he1, he2, he3, he4]
              rw [List.take_succ_cons, List.foldl_cons, hq]
              exact hfold
            next he4 =>
              split at h
              next he5 =>
                rcases ih _ _ _ _ h with ⟨k, hk, hfold, hfind⟩
                refine ⟨k + 1, by omega, ?_, by simpa using hfind⟩
                have hq : qstep s c = ⟨s.inS, true, false⟩ := by
                  simp [qstep, he1, he2, he3, he4, he5]
                rw [List.take_succ_cons, List.foldl_cons, hq]
                exact hfold
              next he5 =>
                split at h
                next he6 =>
                  rcases ih _ _ _ _ h with ⟨k, hk, hfold, hfind⟩
                  refine ⟨k + 1, by omega, ?_, by simpa using hfind⟩
                  have hq : qstep s c = ⟨s.inS, false, false⟩ := by
                    simp [qstep, he1, he2, he3, he4, he5, he6]
                  rw [List.take_succ_cons, List.foldl_cons, hq]
                  exact hfold
                next he6 =>
                  split at h
                  next he7 =>
                    split at h
                    next m' hm' =>
                      injection h with h'
                      injection h' with hj hm
                      subst hj
                      subst hm
                      have hsS : s.inS = false := by
                        rcases Bool.and_eq_true _ _ |>.mp he7 with ⟨ha, _⟩
                        simpa using ha
                      have hsD : s.inD = false := by
                        rcases Bool.and_eq_true _ _ |>.mp he7 with ⟨_, hb⟩
                        simpa using hb
                      have hsE : s.esc = false := by simpa using he1
                      have hs : s = qInit := by
                        cases s
                        simp_all [qInit]
                      exact ⟨0, by omega, by simpa using hs, by simpa using hm'⟩
                    next hm' =>
                      rcases ih _ _ _ _ h with ⟨k, hk, hfold, hfind⟩
                      refine ⟨k + 1, by omega, ?_, by simpa using hfind⟩
                      have hq : qstep s c = s := by
                        simp [qstep, he1, he2, he3, he4, he5, he6]
                      rw [List.take_succ_cons, List.foldl_cons, hq]
                      exact hfold
                  next he7 =>
                    rcases ih _ _ _ _ h with ⟨k, hk, hfold, hfind⟩
                    refine ⟨k + 1, by omega, ?_, by simpa using hfind⟩
                    have hq : qstep s c = s := by
                      simp [qstep, he1, he2, he3, he4, he5, he6]
                    rw [List.take_succ_cons, List.foldl_cons, hq]
                    exact hfold

/-- Counterexample to claim C1 as stated: in the line x = "a /* b"; the
multi-line start token occurs only inside the double-quoted literal
(the quote state at its position 7 is in-double-quote), yet the multi-line
comment phase treats it as a comment start: it truncates the line at
position 7 and enters the inside-multi-line state. -/
theorem claimC1Counterexample :
    (qStateAt (("x = \"a /* b\";").toList) 7).inD = true ∧
    stripMulti [(("/*").toList, ("*/").toList)] (("x = \"a /* b\";").toList) =
      ((("x = \"a /* b\";").toList).take 7, some (("*/").toList)) := by
  decide

/-- Claim C1, amended: the quote protection holds for single-line markers:
whenever the first-unquoted-marker scanner reports a marker at position j,
the quote/escape state reached at j is outside single quotes, outside double
quotes and not escaped, the marker is one of the configured markers and it
matches the line there; hence a single-line marker occurrence inside a
quoted literal never begins comment removal.  (Multi-line start tokens are
located by plain substring search without quote tracking.) -/
theorem claimC1SingleMarkerQuoteSafety :
    ∀ (line : List Char) (markers : List (List Char)) (j : Nat) (m : List Char),
      firstUnquotedMarker line markers = some (j, m) →
      qStateAt line j = qInit ∧ m ∈ markers ∧ startsWithChars m (line.drop j) = true := by
  intro line markers j m h
  rcases fumAuxSound (sortMarkersDesc markers) line qInit 0 j m h with ⟨k, hk, hfold, hfind⟩
  have hkj : k = j := by omega
  subst hkj
  rcases findMarkerHereSome _ _ _ hfind with ⟨hmem, hstarts⟩
  exact ⟨hfold, memSortMarkersDesc markers m hmem, hstarts⟩

/-- Witness for amended claim C1: on a line with a hash inside a double-quoted
literal followed by a real comment, the scanner
reports the marker at position 12, outside the quoted literal. -/
theorem claimC1Witness :
    qStateAt (("s = \"# not\" # real").toList) 12 = qInit ∧
    ("#").toList ∈ [("#").toList] ∧
    startsWithChars (("#").toList) ((("s = \"# not\" # real").toList).drop 12) = true :=
  claimC1SingleMarkerQuoteSafety (("s = \"# not\" # real").toList) [("#").toList] 12
    (("#").toList) (by decide)

/- ------------------------------------------------------------------
Soundness of the earliest-start-token loop.
------------------------------------------------------------------ -/

theorem earliestStepNoFind (line : List Char) (acc : Option (Nat × TokPair)) (p : TokPair)
    (h : findSub p.1 line = none) : earliestStep line acc p = acc := by
  unfold earliestStep; rw [h]

theorem earliestStepFromNone (line : List Char) (p : TokPair) (i0 : Nat)
    (h : findSub p.1 line = some i0) : earliestStep line none p = some (i0, p) := by
  unfold earliestStep; rw [h]

theorem earliestStepTakeNew (line : List Char) (p : TokPair) (i0 j : Nat) (q0 : TokPair)
    (h : findSub p.1 line = some i0) (hij : i0 < j) :
    earliestStep line (some (j, q0)) p = some (i0, p) := by
  unfold earliestStep; rw [h]; simp [hij]

theorem earliestStepKeepOld (line : List Char) (p : TokPair) (i0 j : Nat) (q0 : TokPair)
    (h : findSub p.1 line = some i0) (hij : ¬ i0 < j) :
    earliestStep line (some (j, q0)) p = some (j, q0) := by
  unfold earliestStep; rw [h]; simp [hij]

theorem earliestFoldSound (line : List Char) :
    ∀ (tokens : List TokPair) (acc : Option (Nat × TokPair)),
      (tokens.foldl (earliestStep line) acc = none → acc = none) ∧
      (∀ (i : Nat) (p : TokPair), tokens.foldl (earliestStep line) acc = some (i, p) →
        ((acc = some (i, p)) ∨ (p ∈ tokens ∧ findSub p.1 line = some i)) ∧
        (∀ (k : Nat) (q : TokPair), acc = some (k, q) → i ≤ k) ∧
        (∀ q ∈ tokens, ∀ k, findSub q.1 line = some k → i ≤ k)) := by
  intro tokens
  induction tokens with
  | nil =>
      intro acc
      refine ⟨fun h => h, fun i p h => ?_⟩
      simp only [List.foldl_nil] at h
      refine ⟨Or.inl h, fun k q hkq => ?_, by simp⟩
      rw [h] at hkq
      have h2 := Option.some.inj hkq
      simp only [Prod.mk.injEq] at h2
      omega
  | cons p0 rest ih =>
      intro acc
      constructor
      · intro hnone
        have h0 := (ih (earliestStep line acc p0)).1 (by simpa [List.foldl_cons] using hnone)
        cases hfind : findSub p0.1 line with
        | none => rwa [earliestStepNoFind line acc p0 hfind] at h0
        | some i0 =>
            cases acc with
            | none => rfl
            | some v =>
                rcases v with ⟨j, q0⟩
                by_cases hij : i0 < j
                · rw [earliestStepTakeNew line p0 i0 j q0 hfind hij] at h0; cases h0
                · rw [earliestStepKeepOld line p0 i0 j q0 hfind hij] at h0; cases h0
      · intro i p hR
        rcases (ih (earliestStep line acc p0)).2 i p
          (by simpa [List.foldl_cons] using hR) with ⟨hleft, haccb, hrestb⟩
        cases hfind : findSub p0.1 line with
        | none =>
            rw [earliestStepNoFind line acc p0 hfind] at hleft haccb
            refine ⟨?_, haccb, ?_⟩
            · rcases hleft with h | ⟨hm, hf⟩
              · exact Or.inl h
              · exact Or.inr ⟨List.mem_cons_of_mem _ hm, hf⟩
            · intro q hq k hk
              rcases List.mem_cons.mp hq with rfl | hq2
              · rw [hfind] at hk; cases hk
              · exact hrestb q hq2 k hk
        | some i0 =>
            cases acc with
            | none =>
                rw [earliestStepFromNone line p0 i0 hfind] at hleft haccb
                refine ⟨?_, ?_, ?_⟩
                · rcases hleft with h | ⟨hm, hf⟩
                  · have h2 := Option.some.inj h
                    simp only [Prod.mk.injEq] at h2
                    rcases h2 with ⟨rfl, rfl⟩
                    exact Or.inr ⟨List.mem_cons_self _ _, hfind⟩
                  · exact Or.inr ⟨List.mem_cons_of_mem _ hm, hf⟩
                · intro k q hkq; exact Option.noConfusion hkq
                · intro q hq k hk
                  rcases List.mem_cons.mp hq with rfl | hq2
                  · rw [hfind] at hk
                    have hki := Option.some.inj hk
                    subst hki
                    exact haccb i0 _ rfl
                  · exact hrestb q hq2 k hk
            | some v =>
                rcases v with ⟨j, q0⟩
                by_cases hij : i0 < j
                · rw [earliestStepTakeNew line p0 i0 j q0 hfind hij] at hleft haccb
                  refine ⟨?_, ?_, ?_⟩
                  · rcases hleft with h | ⟨hm, hf⟩
                    · have h2 := Option.some.inj h
                      simp only [Prod.mk.injEq] at h2
                      rcases h2 with ⟨rfl, rfl⟩
                      exact Or.inr ⟨List.mem_cons_self _ _, hfind⟩
                    · exact Or.inr ⟨List.mem_cons_of_mem _ hm, hf⟩
                  · intro k q hkq
                    have h2 := Option.some.inj hkq
                    simp only [Prod.mk.injEq] at h2
                    have hik : i ≤ i0 := haccb i0 p0 rfl
                    omega
                  · intro q hq k hk
                    rcases List.mem_cons.mp hq with rfl | hq2
                    · rw [hfind] at hk
                      have hki := Option.some.inj hk
                      subst hki
                      exact haccb i0 _ rfl
                    · exact hrestb q hq2 k hk
                · rw [earliestStepKeepOld line p0 i0 j q0 hfind hij] at hleft haccb
                  refine ⟨?_, ?_, ?_⟩
                  · rcases hleft with h | ⟨hm, hf⟩
                    · exact Or.inl h
                    · exact Or.inr ⟨List.mem_cons_of_mem _ hm, hf⟩
                  · intro k q hkq
                    have h2 := Option.some.inj hkq
                    simp only [Prod.mk.injEq] at h2
                    have hik : i ≤ j := haccb j q0 rfl
                    omega
                  · intro q hq k hk
                    rcases List.mem_cons.mp hq with rfl | hq2
                    · rw [hfind] at hk
                      have hki := Option.some.inj hk
                      subst hki
                      have hik : i ≤ j := haccb j q0 rfl
                      omega
                    · exact hrestb q hq2 k hk

theorem earliestTokSound (line : List Char) (tokens : List TokPair) (i : Nat) (p : TokPair)
    (h : earliestTok line tokens = some (i, p)) :
    p ∈ tokens ∧ findSub p.1 line = some i ∧
      ∀ q ∈ tokens, ∀ k, findSub q.1 line = some k → i ≤ k := by
  rcases (earliestFoldSound line tokens none).2 i p h with ⟨hleft, _, hbound⟩
  rcases hleft with h2 | ⟨hm, hf⟩
  · cases h2
  · exact ⟨hm, hf, hbound⟩

/-- Claim C4: among several configured multi-line start tokens the one with
the earliest start position wins (the loop keeps the minimum position);
when no token occurs the line passes unchanged; when the end token of the chosen block
does not occur after the start token, the line is truncated at the
start token and the pending end token of that block becomes the carried
state; a line inside an open block whose configured end token does not occur
is skipped with the state persisting; and the closing line is re-scanned
from just after the configured end token, the text before it discarded. -/
theorem claimC4MultiLineBlocks :
    ∀ (mt : List TokPair) (sm : List (List Char)) (line E : List Char),
      (earliestTok line mt = none → stripMulti mt line = (line, none)) ∧
      (∀ (i : Nat) (s e : List Char), earliestTok line mt = some (i, (s, e)) →
          findSubFrom e line (i + s.length) = none →
          stripMulti mt line = (line.take i, some e)) ∧
      (E ≠ [] → findSub E line = none →
          appsecProcessLine mt sm (some E) line = (some E, none)) ∧
      (∀ eIdx : Nat, E ≠ [] → findSub E line = some eIdx →
          appsecProcessLine mt sm (some E) line =
            afterMultiPhase mt sm (line.drop (eIdx + E.length))) ∧
      (∀ (i : Nat) (p : TokPair), earliestTok line mt = some (i, p) →
          p ∈ mt ∧ findSub p.1 line = some i ∧
            ∀ q ∈ mt, ∀ k, findSub q.1 line = some k → i ≤ k) := by
  intro mt sm line E
  refine ⟨?_, ?_, ?_, ?_, ?_⟩
  · intro hE
    simp [stripMulti, stripMultiAux, hE]
  · intro i s e hE hF
    simp [stripMulti, stripMultiAux, hE, hF]
  · intro hE hF
    simp [appsecProcessLine, containsSub, hF, hE]
  · intro eIdx hE hF
    simp [appsecProcessLine, containsSub, hF, hE]
  · intro i p h
    exact earliestTokSound line mt i p h

/-- The token table of the claim C4 witness: the C-style pair configured
before the HTML-style pair. -/
def mtW : List TokPair :=
  [(("/*").toList, ("*/").toList), (("<!--").toList, ("-->").toList)]

/-- The witness line: the HTML start token occurs at position 2, earlier
than the C-style token at position 9. -/
def lineW : List Char := ("a <!-- b /* c").toList

/-- Witness for claim C4: on the witness line the later-configured but
earlier-positioned HTML token wins and leaves an open block pending its own
end token; a following line containing only the end token of the other pair is
skipped with the state persisting. -/
theorem claimC4Witness :
    stripMulti mtW lineW = (lineW.take 2, some (("-->").toList)) ∧
    appsecProcessLine mtW [] (some (("-->").toList)) (("x */ y").toList) =
      (some (("-->").toList), none) := by
  refine ⟨?_, ?_⟩
  · exact (claimC4MultiLineBlocks mtW [] lineW []).2.1 2 (("<!--").toList)
      (("-->").toList) (by decide) (by decide)
  · exact (claimC4MultiLineBlocks mtW [] (("x */ y").toList)
      (("-->").toList)).2.2.1 (by decide) (by decide)

theorem containsSubIff : ∀ (p l : List Char),
    containsSub p l = true ↔ ∃ i, startsWithChars p (l.drop i) = true := by
  intro p l
  induction l with
  | nil =>
      simp only [containsSub, findSub]
      constructor
      · intro h
        split at h
        · exact ⟨0, by assumption⟩
        · simp at h
      · rintro ⟨i, hi⟩
        simp only [List.drop_nil] at hi
        simp [hi]
  | cons c rest ih =>
      constructor
      · intro h
        simp only [containsSub, findSub] at h
        split at h
        · exact ⟨0, by simpa using (by assumption)⟩
        · have h2 : containsSub p rest = true := by
            simp only [containsSub]
            cases hf : findSub p rest
            · rw [hf] at h; simp at h
            · rfl
          rcases ih.mp h2 with ⟨i, hi⟩
          exact ⟨i + 1, by simpa using hi⟩
      · rintro ⟨i, hi⟩
        cases i with
        | zero =>
            simp only [List.drop_zero] at hi
            simp [containsSub, findSub, hi]
        | succ i' =>
            have h2 : containsSub p rest = true := ih.mpr ⟨i', by simpa using hi⟩
            simp only [containsSub, findSub]
            split
            · simp
            · simp only [containsSub] at h2
              cases hf : findSub p rest
              · rw [hf] at h2; simp at h2
              · simp [hf]

/-- Counterexample to claim C6 as stated: in the Scan.py engine, exact mode
with the space-free keyword foo matches the line x = foo (the keyword occurs
at word boundaries) even though the whitespace-trimmed line differs from the
keyword, so the claimed equivalence fails. -/
theorem claimC6Counterexample :
    scanPyMatch true true (("foo").toList) (("x = foo").toList) = true ∧
    ¬ pyStrip (normCase true (("x = foo").toList)) = normCase true (("foo").toList) := by
  decide

/-- Claim C6, amended: in the Appsec/NewUiFix matcher, Exact mode holds iff
the normalized whitespace-trimmed line equals the normalized keyword, and
Substring mode holds iff the normalized keyword occurs in the normalized
line; the same trimmed-equality reading of Exact mode holds in Scan.py when
the compared keyword contains a space, while Scan.py with a space-free
keyword instead searches the keyword at word boundaries anywhere in the
line.  In particular line foo matches keyword foo in Exact mode, foobar
does not, and Substring mode matches both. -/
theorem claimC6MatchModes :
    (∀ (cs ic : Bool) (sm : List (List Char)) (mt : List TokPair) (kw line : List Char),
        appsecMatchLine ⟨kw, true, false, cs, ic, sm, mt⟩ line = true ↔
          pyStrip (normCase cs line) = normCase cs kw) ∧
    (∀ (cs ic : Bool) (sm : List (List Char)) (mt : List TokPair) (kw line : List Char),
        appsecMatchLine ⟨kw, false, false, cs, ic, sm, mt⟩ line = true ↔
          ∃ i, startsWithChars (normCase cs kw) ((normCase cs line).drop i) = true) ∧
    (∀ (cs : Bool) (kw line : List Char),
        (if cs then kw else pyLower kw).contains ' ' = true →
        (scanPyMatch true cs kw line = true ↔
          (if cs then kw else pyLower kw) = pyStrip (if cs then line else pyLower line))) ∧
    (∀ (cs : Bool) (kw line : List Char),
        ¬ (if cs then kw else pyLower kw).contains ' ' = true →
        scanPyMatch true cs kw line =
          wordBoundedFound (!cs) (if cs then kw else pyLower kw) line) ∧
    (appsecMatchLine ⟨("foo").toList, true, false, false, false, [], []⟩
        (("foo").toList) = true ∧
      appsecMatchLine ⟨("foo").toList, true, false, false, false, [], []⟩
        (("foobar").toList) = false ∧
      appsecMatchLine ⟨("foo").toList, false, false, false, false, [], []⟩
        (("foo").toList) = true ∧
      appsecMatchLine ⟨("foo").toList, false, false, false, false, [], []⟩
        (("foobar").toList) = true) := by
  refine ⟨?_, ?_, ?_, ?_, by decide⟩
  · intro cs ic sm mt kw line
    simp [appsecMatchLine]
  · intro cs ic sm mt kw line
    simp only [appsecMatchLine, Bool.false_eq_true, if_false]
    exact containsSubIff _ _
  · intro cs kw line h
    have hmem : ' ' ∈ (if cs = true then kw else pyLower kw) := by simpa using h
    simp [scanPyMatch, hmem]
  · intro cs kw line h
    have hmem : ' ' ∉ (if cs = true then kw else pyLower kw) := by simpa using h
    simp [scanPyMatch, hmem]

/-- Witness for amended claim C6: Scan.py exact mode with the two-token
keyword a b matches the padded line by trimmed equality. -/
theorem claimC6Witness :
    scanPyMatch true true (("a b").toList) ((" a b ").toList) = true :=
  (claimC6MatchModes.2.2.1 true (("a b").toList) ((" a b ").toList)
    (by decide)).mpr (by decide)

/-- Witness for claim C5: the window decomposition applied to the concrete
ten-line example file at the match on line 5. -/
theorem claimC5Witness :
    ∃ B A,
      buildWindow exampleCfgC5 exampleLines10 5 =
        B ++ [exampleLines10.getD (5 - 1) []] ++ A ∧
      B.length = min exampleCfgC5.before
        ((exampleLines10.take (5 - 1)).countP fun x => !isC13 exampleCfgC5 x) ∧
      A.length = min exampleCfgC5.after
        ((exampleLines10.drop 5).countP fun x => !isC13 exampleCfgC5 x) ∧
      (∀ x ∈ B, isC13 exampleCfgC5 x = false) ∧
      (∀ x ∈ A, isC13 exampleCfgC5 x = false) :=
  claimC5ContextWindow.1 exampleCfgC5 exampleLines10 5

end ScanUtil
